import Mathlib

/-!
Shallow embedding of `src/backend/bb84_engine.py` (BB84 quantum key
distribution engine).

The engine's stateful randomness (Python's single global `random` module
stream) is modelled by an explicit stream `u : ℕ → ℚ` of draws in `[0,1)`
together with a consumption index threaded through the computation: each
call to `random.random()`, `random.randint(0, 1)` or
`random.choice(['Z','X'])` consumes exactly one draw, in program order.
Python floats are modelled by `ℚ` (exact arithmetic), bits `{0,1}` by
`Bool` (`1 - bit` becomes `!bit`), and the one fallible operation — the
unguarded division `len(final_key) / len(alice_bits)` in
`_process_results`, which raises `ZeroDivisionError` when the list is
empty — by `Except String`.

`simulate` is embedded in the environment where Qiskit is unavailable
(`QISKIT_AVAILABLE = False`), so that it dispatches to
`_classical_simulation`; the Qiskit-backed `_quantum_simulation` path
calls an external sampler and is outside the embedding.
-/

namespace BB84

/-- Measurement basis, `'Z'` or `'X'` in the Python source. -/
inductive Basis where
  | Z : Basis
  | X : Basis
deriving DecidableEq, Repr

/-- The `BB84Result` dataclass. -/
structure BB84Result where
  aliceBits : List Bool
  aliceBases : List Basis
  bobBits : List Bool
  bobBases : List Basis
  eveBits : List (Option Bool)
  eveBases : List (Option Basis)
  eveInterceptions : List Bool
  matchingBases : List Bool
  finalKey : List Bool
  errorRate : ℚ
  includeEve : Bool
  transmissionEfficiency : ℚ
  quantumFidelity : ℚ
deriving DecidableEq, Repr

/-- `random.random()`: consume one draw, return it as a rational in `[0,1)`. -/
def randFloat (u : ℕ → ℚ) (k : ℕ) : ℚ × ℕ := (u k, k + 1)

/-- `random.randint(0, 1)`: consume one draw, interpret it as a uniform bit. -/
def randBit (u : ℕ → ℚ) (k : ℕ) : Bool × ℕ := (decide (u k < 1/2), k + 1)

/-- `random.choice(['Z', 'X'])`: consume one draw, interpret it as a basis. -/
def randBasis (u : ℕ → ℚ) (k : ℕ) : Basis × ℕ :=
  (if u k < 1/2 then Basis.Z else Basis.X, k + 1)

/-- A list comprehension `[draw() for _ in range(n)]` over a one-draw
primitive, threading the consumption index. -/
def drawList (draw : ℕ → α × ℕ) : ℕ → ℕ → List α × ℕ
  | 0, k => ([], k)
  | n + 1, k =>
      let p := draw k
      let q := drawList draw n p.2
      (p.1 :: q.1, q.2)

/-- `matching_bases = [a == b for a, b in zip(alice_bases, bob_bases)]`. -/
def matchingBasesList (aliceBases bobBases : List Basis) : List Bool :=
  List.zipWith (fun a b => decide (a = b)) aliceBases bobBases

/-- The key-extraction loop of `_process_results`: walks `matching_bases`
while indexing `alice_bits[i]` and `bob_bits[i]` in lockstep, returning
`(final_key, matching_count, error_count)`. -/
def siftLoop : List Bool → List Bool → List Bool → List Bool × ℕ × ℕ
  | true :: ms, a :: as_, b :: bs =>
      let r := siftLoop ms as_ bs
      if a = b then (a :: r.1, r.2.1 + 1, r.2.2)
      else (r.1, r.2.1 + 1, r.2.2 + 1)
  | false :: ms, _ :: as_, _ :: bs => siftLoop ms as_ bs
  | _, _, _ => ([], 0, 0)

/-- The generator-sum in `_calculate_fidelity`: the number of positions with
matching bases where Alice's and Bob's bits agree. -/
def countCorrect : List Bool → List Bool → List Bool → ℕ
  | true :: ms, a :: as_, b :: bs =>
      (if a = b then 1 else 0) + countCorrect ms as_ bs
  | false :: ms, _ :: as_, _ :: bs => countCorrect ms as_ bs
  | _, _, _ => 0

/-- `BB84Engine._calculate_fidelity`. -/
def calculateFidelity (aliceBits bobBits : List Bool) (matching : List Bool) : ℚ :=
  let matchingCount := matching.count true
  if matchingCount = 0 then 0
  else (countCorrect matching aliceBits bobBits : ℚ) / matchingCount

/-- The `BB84Result(...)` record built at the end of `_process_results`
(every field computation of that method, in particular
`error_rate = error_count / matching_count if matching_count > 0 else 0`). -/
def mkResult (aliceBits : List Bool) (aliceBases : List Basis) (bobBits : List Bool)
    (bobBases : List Basis) (eveBits : List (Option Bool)) (eveBases : List (Option Basis))
    (eveInterceptions : List Bool) (includeEve : Bool) : BB84Result :=
  let matching := matchingBasesList aliceBases bobBases
  let s := siftLoop matching aliceBits bobBits
  { aliceBits := aliceBits
    aliceBases := aliceBases
    bobBits := bobBits
    bobBases := bobBases
    eveBits := eveBits
    eveBases := eveBases
    eveInterceptions := eveInterceptions
    matchingBases := matching
    finalKey := s.1
    errorRate := if 0 < s.2.1 then (s.2.2 : ℚ) / s.2.1 else 0
    includeEve := includeEve
    transmissionEfficiency := (s.1.length : ℚ) / aliceBits.length
    quantumFidelity := calculateFidelity aliceBits bobBits matching }

/-- `BB84Engine._process_results`. The division
`len(final_key) / len(alice_bits)` raises `ZeroDivisionError` exactly when
`alice_bits` is empty; otherwise the method returns the assembled result. -/
def processResults (aliceBits : List Bool) (aliceBases : List Basis) (bobBits : List Bool)
    (bobBases : List Basis) (eveBits : List (Option Bool)) (eveBases : List (Option Basis))
    (eveInterceptions : List Bool) (includeEve : Bool) : Except String BB84Result :=
  if aliceBits.length = 0 then Except.error "ZeroDivisionError"
  else Except.ok (mkResult aliceBits aliceBases bobBits bobBases eveBits eveBases
    eveInterceptions includeEve)

/-- Output of the eavesdropper block of the per-photon loop in
`_classical_simulation`: Eve's recorded fields plus the
`transmitted_bit` / `transmitted_basis` forwarded to Bob. -/
structure EveOut where
  intercepted : Bool
  eveBit : Option Bool
  eveBasis : Option Basis
  transmittedBit : Bool
  transmittedBasis : Basis
deriving DecidableEq, Repr

/-- The eavesdropper block of the per-photon loop in `_classical_simulation`:
`eve_intercepts = include_eve and random.random() < eve_rate` (the draw is
consumed only when `include_eve` is true, by short-circuit), then on
interception a basis draw and — only on basis mismatch — a bit draw. -/
def eveStage (includeEve : Bool) (eveRate : ℚ) (aliceBit : Bool) (aliceBasis : Basis)
    (u : ℕ → ℚ) (k : ℕ) : EveOut × ℕ :=
  if includeEve then
    let s := randFloat u k
    if s.1 < eveRate then
      let eb := randBasis u s.2
      if eb.1 = aliceBasis then
        (⟨true, some aliceBit, some eb.1, aliceBit, eb.1⟩, eb.2)
      else
        let r := randBit u eb.2
        (⟨true, some r.1, some eb.1, r.1, eb.1⟩, r.2)
    else (⟨false, none, none, aliceBit, aliceBasis⟩, s.2)
  else (⟨false, none, none, aliceBit, aliceBasis⟩, k)

/-- Bob's measurement in `_classical_simulation`: matching basis receives the
transmitted bit, flipped when the (always consumed) noise draw is below
`noise_level`; mismatched basis receives a fresh uniform bit. -/
def bobMeasure (noiseLevel : ℚ) (transmittedBit : Bool) (transmittedBasis bobBasis : Basis)
    (u : ℕ → ℚ) (k : ℕ) : Bool × ℕ :=
  if bobBasis = transmittedBasis then
    let r := randFloat u k
    (if r.1 < noiseLevel then !transmittedBit else transmittedBit, r.2)
  else randBit u k

/-- Per-photon record produced by one iteration of the loop in
`_classical_simulation`. -/
structure PhotonOut where
  eveIntercepted : Bool
  eveBit : Option Bool
  eveBasis : Option Basis
  bobBit : Bool
deriving DecidableEq, Repr

/-- One iteration of the per-photon loop of `_classical_simulation`:
the eavesdropper block followed by Bob's measurement. -/
def photonStep (includeEve : Bool) (eveRate noiseLevel : ℚ) (u : ℕ → ℚ)
    (aliceBit : Bool) (aliceBasis bobBasis : Basis) (k : ℕ) : PhotonOut × ℕ :=
  let ev := eveStage includeEve eveRate aliceBit aliceBasis u k
  let b := bobMeasure noiseLevel ev.1.transmittedBit ev.1.transmittedBasis bobBasis u ev.2
  (⟨ev.1.intercepted, ev.1.eveBit, ev.1.eveBasis, b.1⟩, b.2)

/-- The `for i in range(num_qubits)` loop of `_classical_simulation`, over the
pre-drawn `(alice_bit, alice_basis, bob_basis)` triples. -/
def photonLoop (includeEve : Bool) (eveRate noiseLevel : ℚ) (u : ℕ → ℚ) :
    List (Bool × Basis × Basis) → ℕ → List PhotonOut × ℕ
  | [], k => ([], k)
  | t :: ts, k =>
      let p := photonStep includeEve eveRate noiseLevel u t.1 t.2.1 t.2.2 k
      let q := photonLoop includeEve eveRate noiseLevel u ts p.2
      (p.1 :: q.1, q.2)

/-- `BB84Engine._classical_simulation`. `num_qubits` is a Python `int` (it may
be negative; `range(n)` is then empty, matching `Int.toNat`). -/
def classicalSimulation (numQubits : Int) (includeEve : Bool) (eveRate noiseLevel : ℚ)
    (u : ℕ → ℚ) : Except String BB84Result :=
  let n := numQubits.toNat
  let ab := drawList (randBit u) n 0
  let abas := drawList (randBasis u) n ab.2
  let bbas := drawList (randBasis u) n abas.2
  let outs := photonLoop includeEve eveRate noiseLevel u (ab.1.zip (abas.1.zip bbas.1)) bbas.2
  processResults ab.1 abas.1 (outs.1.map PhotonOut.bobBit) bbas.1
    (outs.1.map PhotonOut.eveBit) (outs.1.map PhotonOut.eveBasis)
    (outs.1.map PhotonOut.eveIntercepted) includeEve

/-- `BB84Engine.simulate`, in the environment where Qiskit is unavailable, so
the classical simulation runs: `eve_rate = eveInterceptionRate / 100` and no
validation or clamping is applied to any parameter. -/
def simulate (numQubits : Int) (includeEve : Bool) (eveInterceptionRate noiseLevel : ℚ)
    (u : ℕ → ℚ) : Except String BB84Result :=
  classicalSimulation numQubits includeEve (eveInterceptionRate / 100) noiseLevel u

/-- `clamp x lo hi`, as in the spec's clamping description. -/
def clamp (x lo hi : ℚ) : ℚ := max lo (min x hi)

/-- Specification-side final key, following the claim's wording: over the
records with matching bases, Alice's bit is kept exactly when it agrees with
Bob's bit. -/
def specFinalKey (matching aliceBits bobBits : List Bool) : List Bool :=
  (matching.zip (aliceBits.zip bobBits)).filterMap
    fun p => if p.1 = true ∧ p.2.1 = p.2.2 then some p.2.1 else none

/-- Specification-side error count, following the claim's wording: the number
of matching-basis records where Alice's and Bob's bits differ. -/
def specErrorCount (matching aliceBits bobBits : List Bool) : ℕ :=
  ((matching.zip (aliceBits.zip bobBits)).filter fun p => p.1 && (p.2.1 != p.2.2)).length

/-- A constant entropy stream (every draw is `0`), used for concrete runs. -/
def uZero : ℕ → ℚ := fun _ => 0

/-- An entropy stream whose third draw is `3/4` and all others `0`: the drawn
bases are Alice `Z`, Bob `X`, so the single photon is sifted away. -/
def uC2 : ℕ → ℚ := fun k => if k = 2 then 3/4 else 0

/-! ### Basic lemmas -/

lemma drawList_length (draw : ℕ → α × ℕ) : ∀ (n k : ℕ), (drawList draw n k).1.length = n
  | 0, _ => rfl
  | n + 1, k => by simp [drawList, drawList_length draw n]

lemma photonLoop_length (ie : Bool) (er nl : ℚ) (u : ℕ → ℚ) :
    ∀ (ts : List (Bool × Basis × Basis)) (k : ℕ),
      (photonLoop ie er nl u ts k).1.length = ts.length
  | [], _ => rfl
  | _ :: ts, k => by simp [photonLoop, photonLoop_length ie er nl u ts]

lemma matchingBasesList_length (aliceBases bobBases : List Basis) :
    (matchingBasesList aliceBases bobBases).length =
      min aliceBases.length bobBases.length := by
  simp [matchingBasesList]

lemma matchingBasesList_getD :
    ∀ (aliceBases bobBases : List Basis) (i : ℕ),
      i < (matchingBasesList aliceBases bobBases).length →
      (matchingBasesList aliceBases bobBases).getD i false
        = decide (aliceBases.getD i Basis.Z = bobBases.getD i Basis.Z)
  | [], _, i, h => by simp [matchingBasesList] at h
  | _ :: _, [], i, h => by simp [matchingBasesList] at h
  | a :: as_, b :: bs, 0, _ => by simp [matchingBasesList]
  | a :: as_, b :: bs, i + 1, h => by
      simp only [matchingBasesList, List.zipWith_cons_cons, List.length_cons,
        Nat.add_lt_add_iff_right, List.getD_cons_succ] at h ⊢
      exact matchingBasesList_getD as_ bs i h

/-- The key-extraction loop computes the specification-side key, the number of
matching-basis records, and the specification-side error count. -/
lemma siftLoop_spec :
    ∀ (m a b : List Bool), m.length ≤ a.length → m.length ≤ b.length →
      siftLoop m a b = (specFinalKey m a b, m.count true, specErrorCount m a b)
  | [], a, b, _, _ => by simp [siftLoop, specFinalKey, specErrorCount]
  | _ :: _, [], _, ha, _ => by simp at ha
  | _ :: _, _ :: _, [], _, hb => by simp at hb
  | mh :: ms, ah :: as_, bh :: bs, ha, hb => by
      simp only [List.length_cons, Nat.add_le_add_iff_right] at ha hb
      have ih := siftLoop_spec ms as_ bs ha hb
      cases mh with
      | false =>
          simp [siftLoop, specFinalKey, specErrorCount, ih, List.count_cons,
            specFinalKey, List.zip_cons_cons, List.filterMap_cons, List.filter_cons]
      | true =>
          by_cases hab : ah = bh
          · simp [siftLoop, specFinalKey, specErrorCount, ih, hab, List.count_cons,
              List.zip_cons_cons, List.filterMap_cons, List.filter_cons]
          · simp [siftLoop, specFinalKey, specErrorCount, ih, hab, List.count_cons,
              List.zip_cons_cons, List.filterMap_cons, List.filter_cons]

/-- Key length and error count partition the matching-basis records. -/
lemma siftLoop_partition :
    ∀ (m a b : List Bool),
      countCorrect m a b = (siftLoop m a b).1.length ∧
      countCorrect m a b + (siftLoop m a b).2.2 = (siftLoop m a b).2.1
  | [], _, _ => by simp [siftLoop, countCorrect]
  | true :: _, [], _ => by simp [siftLoop, countCorrect]
  | false :: _, [], _ => by simp [siftLoop, countCorrect]
  | true :: _, _ :: _, [] => by simp [siftLoop, countCorrect]
  | false :: _, _ :: _, [] => by simp [siftLoop, countCorrect]
  | mh :: ms, ah :: as_, bh :: bs => by
      have ih := siftLoop_partition ms as_ bs
      cases mh with
      | false => simpa [siftLoop, countCorrect] using ih
      | true =>
          by_cases hab : ah = bh
          · simp only [siftLoop, countCorrect, hab, if_pos]
            constructor
            · simp [ih.1]; omega
            · omega
          · simp only [siftLoop, countCorrect, hab, if_neg, not_false_iff]
            constructor
            · simp [ih.1]
            · omega

lemma processResults_ok_iff (aliceBits : List Bool) (aliceBases : List Basis)
    (bobBits : List Bool) (bobBases : List Basis) (eveBits : List (Option Bool))
    (eveBases : List (Option Basis)) (eveInterceptions : List Bool) (includeEve : Bool)
    (r : BB84Result) :
    processResults aliceBits aliceBases bobBits bobBases eveBits eveBases
        eveInterceptions includeEve = Except.ok r
      ↔ aliceBits.length ≠ 0 ∧
        r = mkResult aliceBits aliceBases bobBits bobBases eveBits eveBases
          eveInterceptions includeEve := by
  unfold processResults
  by_cases h : aliceBits.length = 0 <;> simp [h, eq_comm]

/-- Inversion for a successful classical run: the result is the processed
record built from the drawn sequences, and every per-photon sequence has
length `numQubits.toNat` (which is positive, since the empty run raises). -/
lemma classicalSimulation_ok_inv (N : Int) (ie : Bool) (er nl : ℚ) (u : ℕ → ℚ)
    (r : BB84Result)
    (h : classicalSimulation N ie er nl u = Except.ok r) :
    r = mkResult r.aliceBits r.aliceBases r.bobBits r.bobBases r.eveBits r.eveBases
        r.eveInterceptions ie
    ∧ r.aliceBits.length = N.toNat ∧ r.aliceBases.length = N.toNat
    ∧ r.bobBits.length = N.toNat ∧ r.bobBases.length = N.toNat
    ∧ r.eveBits.length = N.toNat ∧ r.eveBases.length = N.toNat
    ∧ r.eveInterceptions.length = N.toNat ∧ r.matchingBases.length = N.toNat
    ∧ 0 < N.toNat := by
  simp only [classicalSimulation] at h
  rw [processResults_ok_iff] at h
  obtain ⟨hne, hr⟩ := h
  have hA : (drawList (randBit u) N.toNat 0).1.length = N.toNat := drawList_length _ _ _
  have hAB : (drawList (randBasis u) N.toNat (drawList (randBit u) N.toNat 0).2).1.length
      = N.toNat := drawList_length _ _ _
  have hBB : (drawList (randBasis u) N.toNat
      (drawList (randBasis u) N.toNat (drawList (randBit u) N.toNat 0).2).2).1.length
      = N.toNat := drawList_length _ _ _
  have houts : ∀ k, (photonLoop ie er nl u
      ((drawList (randBit u) N.toNat 0).1.zip
        ((drawList (randBasis u) N.toNat (drawList (randBit u) N.toNat 0).2).1.zip
          (drawList (randBasis u) N.toNat
            (drawList (randBasis u) N.toNat (drawList (randBit u) N.toNat 0).2).2).1)) k).1.length
      = N.toNat := by
    intro k
    rw [photonLoop_length]
    simp [hA, hAB, hBB]
  subst hr
  rw [hA] at hne
  have hpos : 0 < N.toNat := Nat.pos_of_ne_zero hne
  refine ⟨rfl, ?_⟩
  simp only [mkResult]
  simp [matchingBasesList_length, hA, hAB, hBB, houts, hpos]

/-! ### Runs without the eavesdropper -/

lemma photonStep_noEve_rate (er1 er2 nl : ℚ) (u : ℕ → ℚ) (a : Bool) (ab bb : Basis)
    (k : ℕ) :
    photonStep false er1 nl u a ab bb k = photonStep false er2 nl u a ab bb k := rfl

lemma photonLoop_noEve_rate (er1 er2 nl : ℚ) (u : ℕ → ℚ) :
    ∀ (ts : List (Bool × Basis × Basis)) (k : ℕ),
      photonLoop false er1 nl u ts k = photonLoop false er2 nl u ts k
  | [], _ => rfl
  | t :: ts, k => by
      simp only [photonLoop]
      rw [photonStep_noEve_rate er1 er2, photonLoop_noEve_rate er1 er2 nl u ts]

lemma photonLoop_noEve_fields (er nl : ℚ) (u : ℕ → ℚ) :
    ∀ (ts : List (Bool × Basis × Basis)) (k : ℕ),
      ∀ o ∈ (photonLoop false er nl u ts k).1,
        o.eveIntercepted = false ∧ o.eveBit = none ∧ o.eveBasis = none
  | [], _, o, ho => by simp [photonLoop] at ho
  | t :: ts, k, o, ho => by
      simp only [photonLoop, List.mem_cons] at ho
      rcases ho with ho | ho
      · subst ho
        simp [photonStep, eveStage]
      · exact photonLoop_noEve_fields er nl u ts _ o ho

/-- Without Eve and with non-positive noise, Bob's bit at every matching-basis
position equals Alice's bit. -/
lemma photonLoop_noEve_bob (er nl : ℚ) (u : ℕ → ℚ) (hu : ∀ k, 0 ≤ u k) (hnl : nl ≤ 0) :
    ∀ (A : List Bool) (AB BB : List Basis) (k i : ℕ),
      i < A.length → i < AB.length → i < BB.length →
      AB.getD i Basis.Z = BB.getD i Basis.Z →
      ((photonLoop false er nl u (A.zip (AB.zip BB)) k).1.map PhotonOut.bobBit).getD i false
        = A.getD i false
  | [], _, _, _, i, hA, _, _, _ => by simp at hA
  | _ :: _, [], _, _, i, _, hAB, _, _ => by simp at hAB
  | _ :: _, _ :: _, [], _, i, _, _, hBB, _ => by simp at hBB
  | a :: A, ab :: ABs, bb :: BBs, k, 0, _, _, _, hm => by
      simp only [List.getD_cons_zero] at hm
      subst hm
      simp only [List.zip_cons_cons, photonLoop, photonStep, eveStage, bobMeasure,
        randFloat, List.map_cons, List.getD_cons_zero, if_pos rfl]
      simp
      exact hnl.trans (hu _)
  | a :: A, ab :: ABs, bb :: BBs, k, i + 1, hA, hAB, hBB, hm => by
      simp only [List.length_cons, Nat.add_lt_add_iff_right] at hA hAB hBB
      simp only [List.getD_cons_succ] at hm
      simp only [List.zip_cons_cons, photonLoop, List.map_cons, List.getD_cons_succ]
      exact photonLoop_noEve_bob er nl u hu hnl A ABs BBs _ i hA hAB hBB hm

/-! ### Clamping -/

lemma lt_clamp01_iff (x p : ℚ) (h0 : 0 ≤ x) (h1 : x < 1) : x < p ↔ x < clamp p 0 1 := by
  unfold clamp
  rcases le_total p 0 with hp | hp
  · rw [min_eq_left (by linarith), max_eq_left hp]
    constructor <;> intro <;> linarith
  · rcases le_total p 1 with hp1 | hp1
    · rw [min_eq_left hp1, max_eq_right hp]
    · rw [min_eq_right hp1, max_eq_right (by norm_num : (0:ℚ) ≤ 1)]
      exact iff_of_true (by linarith) h1

lemma lt_clamp100_div_iff (x p : ℚ) (h0 : 0 ≤ x) (h1 : x < 1) :
    x < p / 100 ↔ x < clamp p 0 100 / 100 := by
  unfold clamp
  rcases le_total p 0 with hp | hp
  · rw [min_eq_left (by linarith), max_eq_left hp]
    rw [zero_div]
    constructor <;> intro <;> linarith
  · rcases le_total p 100 with hp1 | hp1
    · rw [min_eq_left hp1, max_eq_right hp]
    · rw [min_eq_right hp1, max_eq_right (by norm_num : (0:ℚ) ≤ 100)]
      norm_num
      exact iff_of_true (by linarith) h1

lemma eveStage_congr (ie : Bool) (er1 er2 : ℚ) (u : ℕ → ℚ)
    (h : ∀ j, u j < er1 ↔ u j < er2) (a : Bool) (ab : Basis) (k : ℕ) :
    eveStage ie er1 a ab u k = eveStage ie er2 a ab u k := by
  by_cases h1 : u k < er1
  · have h2 : u k < er2 := (h k).mp h1
    simp [eveStage, randFloat, h1, h2]
  · have h2 : ¬ u k < er2 := fun hx => h1 ((h k).mpr hx)
    simp [eveStage, randFloat, h1, h2]

lemma bobMeasure_congr (nl1 nl2 : ℚ) (u : ℕ → ℚ) (h : ∀ j, u j < nl1 ↔ u j < nl2)
    (t : Bool) (tb bb : Basis) (k : ℕ) :
    bobMeasure nl1 t tb bb u k = bobMeasure nl2 t tb bb u k := by
  by_cases h1 : u k < nl1
  · have h2 : u k < nl2 := (h k).mp h1
    simp [bobMeasure, randFloat, h1, h2]
  · have h2 : ¬ u k < nl2 := fun hx => h1 ((h k).mpr hx)
    simp [bobMeasure, randFloat, h1, h2]

lemma photonStep_congr (ie : Bool) (er1 er2 nl1 nl2 : ℚ) (u : ℕ → ℚ)
    (her : ∀ j, u j < er1 ↔ u j < er2) (hnl : ∀ j, u j < nl1 ↔ u j < nl2)
    (a : Bool) (ab bb : Basis) (k : ℕ) :
    photonStep ie er1 nl1 u a ab bb k = photonStep ie er2 nl2 u a ab bb k := by
  unfold photonStep
  simp only [eveStage_congr ie er1 er2 u her, bobMeasure_congr nl1 nl2 u hnl]

lemma photonLoop_congr (ie : Bool) (er1 er2 nl1 nl2 : ℚ) (u : ℕ → ℚ)
    (her : ∀ j, u j < er1 ↔ u j < er2) (hnl : ∀ j, u j < nl1 ↔ u j < nl2) :
    ∀ (ts : List (Bool × Basis × Basis)) (k : ℕ),
      photonLoop ie er1 nl1 u ts k = photonLoop ie er2 nl2 u ts k
  | [], _ => rfl
  | t :: ts, k => by
      simp only [photonLoop]
      rw [photonStep_congr ie er1 er2 nl1 nl2 u her hnl,
        photonLoop_congr ie er1 er2 nl1 nl2 u her hnl ts]

lemma classicalSimulation_congr (N : Int) (ie : Bool) (er1 er2 nl1 nl2 : ℚ) (u : ℕ → ℚ)
    (her : ∀ j, u j < er1 ↔ u j < er2) (hnl : ∀ j, u j < nl1 ↔ u j < nl2) :
    classicalSimulation N ie er1 nl1 u = classicalSimulation N ie er2 nl2 u := by
  simp only [classicalSimulation]
  rw [photonLoop_congr ie er1 er2 nl1 nl2 u her hnl]

lemma classicalSimulation_isOk (N : Int) (ie : Bool) (er nl : ℚ) (u : ℕ → ℚ)
    (hN : 1 ≤ N) :
    ∃ r, classicalSimulation N ie er nl u = Except.ok r := by
  simp only [classicalSimulation]
  unfold processResults
  rw [if_neg]
  · exact ⟨_, rfl⟩
  · rw [drawList_length]
    omega

/-- If Bob's bit agrees with Alice's at every matching-basis position, the sift
loop records no error and keeps every matching-basis position in the key. -/
lemma siftLoop_no_mismatch :
    ∀ (m a b : List Bool), m.length ≤ a.length → m.length ≤ b.length →
      (∀ i, i < m.length → m.getD i false = true → b.getD i false = a.getD i false) →
      (siftLoop m a b).2.2 = 0 ∧ (siftLoop m a b).1.length = m.count true
  | [], a, b, _, _, _ => by simp [siftLoop]
  | _ :: _, [], _, ha, _, _ => by simp at ha
  | _ :: _, _ :: _, [], _, hb, _ => by simp at hb
  | mh :: ms, ah :: as_, bh :: bs, ha, hb, hp => by
      simp only [List.length_cons, Nat.add_le_add_iff_right] at ha hb
      have hp' : ∀ i, i < ms.length → ms.getD i false = true →
          bs.getD i false = as_.getD i false := by
        intro i hi hmi
        have := hp (i + 1) (by simpa using hi) (by simpa using hmi)
        simpa using this
      have ih := siftLoop_no_mismatch ms as_ bs ha hb hp'
      cases mh with
      | false => simpa [siftLoop, List.count_cons] using ih
      | true =>
          have hab : bh = ah := by
            have := hp 0 (by simp) (by simp)
            simpa using this
          subst hab
          simp [siftLoop, List.count_cons, ih.1, ih.2]

section MkResultFields

variable (aliceBits : List Bool) (aliceBases : List Basis) (bobBits : List Bool)
variable (bobBases : List Basis) (eveBits : List (Option Bool)) (eveBases : List (Option Basis))
variable (eveInterceptions : List Bool) (includeEve : Bool)

lemma mkResult_aliceBits :
    (mkResult aliceBits aliceBases bobBits bobBases eveBits eveBases eveInterceptions
      includeEve).aliceBits = aliceBits := rfl

lemma mkResult_aliceBases :
    (mkResult aliceBits aliceBases bobBits bobBases eveBits eveBases eveInterceptions
      includeEve).aliceBases = aliceBases := rfl

lemma mkResult_bobBits :
    (mkResult aliceBits aliceBases bobBits bobBases eveBits eveBases eveInterceptions
      includeEve).bobBits = bobBits := rfl

lemma mkResult_bobBases :
    (mkResult aliceBits aliceBases bobBits bobBases eveBits eveBases eveInterceptions
      includeEve).bobBases = bobBases := rfl

lemma mkResult_eveBits :
    (mkResult aliceBits aliceBases bobBits bobBases eveBits eveBases eveInterceptions
      includeEve).eveBits = eveBits := rfl

lemma mkResult_eveBases :
    (mkResult aliceBits aliceBases bobBits bobBases eveBits eveBases eveInterceptions
      includeEve).eveBases = eveBases := rfl

lemma mkResult_eveInterceptions :
    (mkResult aliceBits aliceBases bobBits bobBases eveBits eveBases eveInterceptions
      includeEve).eveInterceptions = eveInterceptions := rfl

lemma mkResult_matchingBases :
    (mkResult aliceBits aliceBases bobBits bobBases eveBits eveBases eveInterceptions
      includeEve).matchingBases = matchingBasesList aliceBases bobBases := rfl

lemma mkResult_finalKey :
    (mkResult aliceBits aliceBases bobBits bobBases eveBits eveBases eveInterceptions
        includeEve).finalKey
      = (siftLoop (matchingBasesList aliceBases bobBases) aliceBits bobBits).1 := rfl

lemma mkResult_errorRate :
    (mkResult aliceBits aliceBases bobBits bobBases eveBits eveBases eveInterceptions
        includeEve).errorRate
      = (if 0 < (siftLoop (matchingBasesList aliceBases bobBases) aliceBits bobBits).2.1
          then ((siftLoop (matchingBasesList aliceBases bobBases) aliceBits bobBits).2.2 : ℚ)
            / (siftLoop (matchingBasesList aliceBases bobBases) aliceBits bobBits).2.1
          else 0) := rfl

lemma mkResult_transmissionEfficiency :
    (mkResult aliceBits aliceBases bobBits bobBases eveBits eveBases eveInterceptions
        includeEve).transmissionEfficiency
      = ((siftLoop (matchingBasesList aliceBases bobBases) aliceBits bobBits).1.length : ℚ)
          / aliceBits.length := rfl

lemma mkResult_quantumFidelity :
    (mkResult aliceBits aliceBases bobBits bobBases eveBits eveBases eveInterceptions
        includeEve).quantumFidelity
      = calculateFidelity aliceBits bobBits (matchingBasesList aliceBases bobBases) := rfl

end MkResultFields

/-! ### Claim theorems -/

/-- C1: for every simulation run, the result processor computes
`matchingBases[i] = (aliceBases[i] == bobBases[i])` at every index; over
exactly the matching-basis records it appends `aliceBits[i]` to `finalKey`
when `aliceBits[i] == bobBits[i]` and otherwise counts an error without adding
the position to the key; and `errorRate = errorCount / siftedCount`, with
`errorRate = 0` when `siftedCount == 0`. -/
theorem bb84_C1 (aliceBits : List Bool) (aliceBases : List Basis) (bobBits : List Bool)
    (bobBases : List Basis) (eveBits : List (Option Bool)) (eveBases : List (Option Basis))
    (eveInterceptions : List Bool) (includeEve : Bool) (r : BB84Result)
    (hABl : aliceBases.length = aliceBits.length)
    (hBl : bobBits.length = aliceBits.length)
    (hBBl : bobBases.length = aliceBits.length)
    (h : processResults aliceBits aliceBases bobBits bobBases eveBits eveBases
        eveInterceptions includeEve = Except.ok r) :
    (∀ i, i < r.matchingBases.length →
        r.matchingBases.getD i false
          = decide (aliceBases.getD i Basis.Z = bobBases.getD i Basis.Z))
    ∧ r.finalKey = specFinalKey r.matchingBases aliceBits bobBits
    ∧ r.errorRate = (if r.matchingBases.count true = 0 then 0
        else (specErrorCount r.matchingBases aliceBits bobBits : ℚ)
          / (r.matchingBases.count true)) := by
  rw [processResults_ok_iff] at h
  obtain ⟨hne, hr⟩ := h
  subst hr
  have hml : (matchingBasesList aliceBases bobBases).length = aliceBits.length := by
    rw [matchingBasesList_length]; omega
  have hsift := siftLoop_spec (matchingBasesList aliceBases bobBases) aliceBits bobBits
    (by omega) (by omega)
  simp only [mkResult_matchingBases, mkResult_finalKey, mkResult_errorRate, hsift]
  refine ⟨?_, trivial, ?_⟩
  · intro i hi
    exact matchingBasesList_getD aliceBases bobBases i hi
  · rcases Nat.eq_zero_or_pos ((matchingBasesList aliceBases bobBases).count true) with h0 | h0
    · simp [h0]
    · simp [h0, Nat.pos_iff_ne_zero.mp h0]

theorem bb84_C1_witness :
    (mkResult [true, true] [Basis.Z, Basis.X] [true, false] [Basis.Z, Basis.Z]
        [none, none] [none, none] [false, false] false).finalKey
      = specFinalKey
          (mkResult [true, true] [Basis.Z, Basis.X] [true, false] [Basis.Z, Basis.Z]
            [none, none] [none, none] [false, false] false).matchingBases
          [true, true] [true, false] := by
  have h := bb84_C1 [true, true] [Basis.Z, Basis.X] [true, false] [Basis.Z, Basis.Z]
    [none, none] [none, none] [false, false] false _ rfl rfl rfl rfl
  exact h.2.1

/-- The fidelity/error-rate relation at the list level: with at least one
matching-basis record the identity `fidelity = 1 − errorRate` holds, and with
none both metrics are `0`. -/
lemma fidelity_vs_errorRate (m a b : List Bool) (hma : m.length ≤ a.length)
    (hmb : m.length ≤ b.length) :
    (0 < m.count true →
      calculateFidelity a b m
        = 1 - (if 0 < (siftLoop m a b).2.1
            then ((siftLoop m a b).2.2 : ℚ) / (siftLoop m a b).2.1 else 0))
    ∧ (m.count true = 0 →
      calculateFidelity a b m = 0
      ∧ (if 0 < (siftLoop m a b).2.1
          then ((siftLoop m a b).2.2 : ℚ) / (siftLoop m a b).2.1 else 0) = 0) := by
  have hsift := siftLoop_spec m a b hma hmb
  have hpart := siftLoop_partition m a b
  have hcc : countCorrect m a b + specErrorCount m a b = m.count true := by
    have h2 := hpart.2
    rw [hsift] at h2
    simpa using h2
  rw [hsift]
  constructor
  · intro hpos
    have hne := Nat.pos_iff_ne_zero.mp hpos
    simp only [calculateFidelity, if_neg hne]
    simp only [if_pos hpos]
    have hq : ((m.count true : ℚ)) ≠ 0 := by exact_mod_cast hne
    have hc : (countCorrect m a b : ℚ) + (specErrorCount m a b : ℚ) = (m.count true : ℚ) := by
      exact_mod_cast hcc
    field_simp
    linarith
  · intro h0
    simp only [calculateFidelity, if_pos h0, h0]
    simp

/-- C2 counterexample: a one-photon run whose single basis pair mismatches
returns `quantumFidelity = 0` and `errorRate = 0`, so
`quantumFidelity ≠ 1 − errorRate`. -/
theorem bb84_C2_counterexample :
    classicalSimulation 1 false 0 0 uC2
      = Except.ok (mkResult [true] [Basis.Z] [true] [Basis.X] [none] [none] [false] false)
    ∧ (mkResult [true] [Basis.Z] [true] [Basis.X] [none] [none] [false] false).quantumFidelity
      ≠ 1 - (mkResult [true] [Basis.Z] [true] [Basis.X] [none] [none] [false]
          false).errorRate := by
  constructor
  · norm_num [classicalSimulation, drawList, randBit, randBasis, randFloat, uC2,
      photonLoop, photonStep, eveStage, bobMeasure, processResults]
  · rw [mkResult_quantumFidelity, mkResult_errorRate]
    norm_num [calculateFidelity, matchingBasesList, siftLoop, countCorrect, List.count_cons]

/-- C2 (amended): `quantumFidelity = 1 − errorRate` for every run with at
least one matching-basis record; when no bases match, the run returns
`quantumFidelity = 0` and `errorRate = 0` (so the identity fails there). -/
theorem bb84_C2_amended (N : Int) (ie : Bool) (er nl : ℚ) (u : ℕ → ℚ) (r : BB84Result)
    (h : classicalSimulation N ie er nl u = Except.ok r) :
    (0 < r.matchingBases.count true → r.quantumFidelity = 1 - r.errorRate)
    ∧ (r.matchingBases.count true = 0 → r.quantumFidelity = 0 ∧ r.errorRate = 0) := by
  obtain ⟨hr, hA, hABl, hBl, hBBl, -, -, -, -, -⟩ :=
    classicalSimulation_ok_inv N ie er nl u r h
  have hml : (matchingBasesList r.aliceBases r.bobBases).length = N.toNat := by
    rw [matchingBasesList_length, hABl, hBBl]; omega
  have hmb : r.matchingBases = matchingBasesList r.aliceBases r.bobBases := by
    conv_lhs => rw [hr]
    exact mkResult_matchingBases _ _ _ _ _ _ _ _
  have hfid : r.quantumFidelity
      = calculateFidelity r.aliceBits r.bobBits (matchingBasesList r.aliceBases r.bobBases) := by
    conv_lhs => rw [hr]
    exact mkResult_quantumFidelity _ _ _ _ _ _ _ _
  have herr : r.errorRate
      = (if 0 < (siftLoop (matchingBasesList r.aliceBases r.bobBases) r.aliceBits r.bobBits).2.1
          then ((siftLoop (matchingBasesList r.aliceBases r.bobBases)
              r.aliceBits r.bobBits).2.2 : ℚ)
            / (siftLoop (matchingBasesList r.aliceBases r.bobBases) r.aliceBits r.bobBits).2.1
          else 0) := by
    conv_lhs => rw [hr]
    exact mkResult_errorRate _ _ _ _ _ _ _ _
  have hkey := fidelity_vs_errorRate (matchingBasesList r.aliceBases r.bobBases)
    r.aliceBits r.bobBits (by omega) (by omega)
  rw [hmb, hfid, herr]
  exact hkey

theorem bb84_C2_amended_witness :
    (mkResult [true] [Basis.Z] [true] [Basis.Z] [none] [none] [false] false).quantumFidelity
      = 1 - (mkResult [true] [Basis.Z] [true] [Basis.Z] [none] [none] [false]
          false).errorRate := by
  have h := bb84_C2_amended 1 false 0 0 uZero
    (mkResult [true] [Basis.Z] [true] [Basis.Z] [none] [none] [false] false)
    (by norm_num [classicalSimulation, drawList, randBit, randBasis, randFloat, uZero,
      photonLoop, photonStep, eveStage, bobMeasure, processResults])
  exact h.1 (by decide)

/-- C3: contrary to the claim, `simulate` with `numQubits == 0` does not
return an empty result — the unguarded division
`len(final_key) / len(alice_bits)` in `_process_results` raises
`ZeroDivisionError` (for every parameter set and every draw stream). -/
theorem bb84_C3_eval (ie : Bool) (er nl : ℚ) (u : ℕ → ℚ) :
    simulate 0 ie er nl u = Except.error "ZeroDivisionError" := rfl

/-- C4 counterexample: with `numQubits = -1` the engine does not fail with a
`ValidationError` (there is no validation step in `simulate`); it raises
`ZeroDivisionError` from result processing instead. -/
theorem bb84_C4_counterexample :
    simulate (-1) true 30 (1/100) uZero = Except.error "ZeroDivisionError"
    ∧ "ZeroDivisionError" ≠ "ValidationError" := by
  constructor
  · rfl
  · decide

/-- C4 (amended): when `simulate` is called with `numQubits < 0`, it fails —
with a `ZeroDivisionError` raised during result processing, not with a
`ValidationError` — and no partial result is returned. -/
theorem bb84_C4_amended (N : Int) (ie : Bool) (er nl : ℚ) (u : ℕ → ℚ) (hN : N < 0) :
    simulate N ie er nl u = Except.error "ZeroDivisionError" := by
  have h0 : N.toNat = 0 := Int.toNat_of_nonpos hN.le
  simp only [simulate, classicalSimulation, h0]
  rfl

theorem bb84_C4_amended_witness :
    simulate (-2) false 30 (1/100) uZero = Except.error "ZeroDivisionError" :=
  bb84_C4_amended (-2) false 30 (1/100) uZero (by decide)

/-- C5: in the probabilistic backend, Bob's measurement is applied to the
transmitted photon (Alice's, or Eve's re-prepared one when intercepted); a
matching basis yields the transmitted bit flipped exactly when the noise draw
is below `noiseLevel`, and a mismatched basis yields a uniformly random bit
that does not depend on `noiseLevel`. -/
theorem bb84_C5 (ie : Bool) (er nl nl2 : ℚ) (u : ℕ → ℚ) (a : Bool) (ab bb : Basis)
    (k : ℕ) :
    (photonStep ie er nl u a ab bb k).1.bobBit
      = (bobMeasure nl (eveStage ie er a ab u k).1.transmittedBit
          (eveStage ie er a ab u k).1.transmittedBasis bb u (eveStage ie er a ab u k).2).1
    ∧ (∀ (t : Bool) (tb : Basis), bb = tb →
        (bobMeasure nl t tb bb u k).1 = (if u k < nl then !t else t))
    ∧ (∀ (t : Bool) (tb : Basis), bb ≠ tb →
        (bobMeasure nl t tb bb u k).1 = decide (u k < 1/2)
        ∧ (bobMeasure nl t tb bb u k).1 = (bobMeasure nl2 t tb bb u k).1) := by
  refine ⟨rfl, ?_, ?_⟩
  · intro t tb hbb
    simp [bobMeasure, randFloat, hbb]
  · intro t tb hbb
    exact ⟨by simp [bobMeasure, randBit, hbb], by simp [bobMeasure, randBit, hbb]⟩

theorem bb84_C5_witness :
    (bobMeasure (1/2) true Basis.Z Basis.Z uZero 0).1 = !true
    ∧ (bobMeasure (1/2) true Basis.Z Basis.X uZero 0).1 = true
    ∧ (bobMeasure (1/2) true Basis.Z Basis.X uZero 0).1
      = (bobMeasure (9/10) true Basis.Z Basis.X uZero 0).1 := by
  have h1 := (bb84_C5 false 0 (1/2) (9/10) uZero true Basis.Z Basis.Z 0).2.1 true Basis.Z rfl
  have h2 := (bb84_C5 false 0 (1/2) (9/10) uZero true Basis.Z Basis.X 0).2.2 true Basis.Z
    (by decide)
  refine ⟨?_, ?_, h2.2⟩
  · rw [h1]
    norm_num [uZero]
  · rw [h2.1]
    norm_num [uZero]

/-- C6 counterexample: the claim quantifies over every parameter set, but with
`numQubits = 0` (and out-of-range `eveInterceptionRate = 150`,
`noiseLevel = 5`) `simulate` does not complete — it raises
`ZeroDivisionError`. -/
theorem bb84_C6_counterexample :
    simulate 0 false 150 5 uZero = Except.error "ZeroDivisionError" := rfl

/-- C6 (amended): out-of-range `eveInterceptionRate` or `noiseLevel` is not an
error: for draws in `[0,1)`, `simulate` produces the identical outcome as the
same call with `eveInterceptionRate` clamped to `[0,100]` and `noiseLevel`
clamped to `[0,1]`, and it completes with a result whenever `numQubits ≥ 1`
(with `numQubits ≤ 0` both calls raise the same `ZeroDivisionError`). -/
theorem bb84_C6_amended (N : Int) (ie : Bool) (er nl : ℚ) (u : ℕ → ℚ)
    (hu : ∀ k, 0 ≤ u k ∧ u k < 1) :
    simulate N ie er nl u = simulate N ie (clamp er 0 100) (clamp nl 0 1) u
    ∧ (1 ≤ N → ∃ r, simulate N ie er nl u = Except.ok r) := by
  constructor
  · unfold simulate
    exact classicalSimulation_congr N ie (er / 100) (clamp er 0 100 / 100) nl (clamp nl 0 1) u
      (fun j => lt_clamp100_div_iff (u j) er (hu j).1 (hu j).2)
      (fun j => lt_clamp01_iff (u j) nl (hu j).1 (hu j).2)
  · intro hN
    exact classicalSimulation_isOk N ie (er / 100) nl u hN

theorem bb84_C6_amended_witness :
    simulate 1 false 150 5 uZero = simulate 1 false (clamp 150 0 100) (clamp 5 0 1) uZero
    ∧ ∃ r, simulate 1 false 150 5 uZero = Except.ok r := by
  have h := bb84_C6_amended 1 false 150 5 uZero
    (fun k => ⟨le_refl 0, by norm_num [uZero]⟩)
  exact ⟨h.1, h.2 (by norm_num)⟩

/-- C7: for every `numQubits = N ≥ 0`, each per-photon sequence in a returned
result has length exactly `N`. -/
theorem bb84_C7 (N : Int) (ie : Bool) (er nl : ℚ) (u : ℕ → ℚ) (r : BB84Result)
    (hN : 0 ≤ N) (h : classicalSimulation N ie er nl u = Except.ok r) :
    (r.aliceBits.length : Int) = N ∧ (r.aliceBases.length : Int) = N
    ∧ (r.bobBits.length : Int) = N ∧ (r.bobBases.length : Int) = N
    ∧ (r.eveBits.length : Int) = N ∧ (r.eveBases.length : Int) = N
    ∧ (r.eveInterceptions.length : Int) = N ∧ (r.matchingBases.length : Int) = N := by
  obtain ⟨-, h1, h2, h3, h4, h5, h6, h7, h8, -⟩ :=
    classicalSimulation_ok_inv N ie er nl u r h
  rw [h1, h2, h3, h4, h5, h6, h7, h8]
  omega

theorem bb84_C7_witness :
    ((mkResult [true] [Basis.Z] [true] [Basis.Z] [none] [none] [false]
        false).aliceBits.length : Int) = 1 := by
  have h := bb84_C7 1 false 0 0 uZero
    (mkResult [true] [Basis.Z] [true] [Basis.Z] [none] [none] [false] false)
    (by norm_num)
    (by norm_num [classicalSimulation, drawList, randBit, randBasis, randFloat, uZero,
      photonLoop, photonStep, eveStage, bobMeasure, processResults])
  exact h.1

/-- C8: for every run, `len(finalKey)` is at most the number of
matching-basis positions, which is at most `numQubits`. -/
theorem bb84_C8 (N : Int) (ie : Bool) (er nl : ℚ) (u : ℕ → ℚ) (r : BB84Result)
    (hN : 0 ≤ N) (h : classicalSimulation N ie er nl u = Except.ok r) :
    r.finalKey.length ≤ r.matchingBases.count true
    ∧ (r.matchingBases.count true : Int) ≤ N := by
  obtain ⟨hr, hA, hABl, hBl, hBBl, -, -, -, hm, -⟩ :=
    classicalSimulation_ok_inv N ie er nl u r h
  have hmb : r.matchingBases = matchingBasesList r.aliceBases r.bobBases := by
    conv_lhs => rw [hr]
    exact mkResult_matchingBases _ _ _ _ _ _ _ _
  have hkey : r.finalKey
      = (siftLoop (matchingBasesList r.aliceBases r.bobBases) r.aliceBits r.bobBits).1 := by
    conv_lhs => rw [hr]
    exact mkResult_finalKey _ _ _ _ _ _ _ _
  have hml : (matchingBasesList r.aliceBases r.bobBases).length = N.toNat := by
    rw [matchingBasesList_length, hABl, hBBl]; omega
  have hsift := siftLoop_spec (matchingBasesList r.aliceBases r.bobBases)
    r.aliceBits r.bobBits (by omega) (by omega)
  have hpart := siftLoop_partition (matchingBasesList r.aliceBases r.bobBases)
    r.aliceBits r.bobBits
  constructor
  · rw [hkey, hmb, ← hpart.1]
    have h2 := hpart.2
    rw [hsift] at h2
    simp only at h2
    omega
  · rw [hmb]
    have := List.count_le_length true (matchingBasesList r.aliceBases r.bobBases)
    omega

theorem bb84_C8_witness :
    (mkResult [true] [Basis.Z] [true] [Basis.Z] [none] [none] [false]
        false).finalKey.length
      ≤ (mkResult [true] [Basis.Z] [true] [Basis.Z] [none] [none] [false]
        false).matchingBases.count true := by
  have h := bb84_C8 1 false 0 0 uZero
    (mkResult [true] [Basis.Z] [true] [Basis.Z] [none] [none] [false] false)
    (by norm_num)
    (by norm_num [classicalSimulation, drawList, randBit, randBasis, randFloat, uZero,
      photonLoop, photonStep, eveStage, bobMeasure, processResults])
  exact h.1

/-- C9: when `includeEve` is false, `eveInterceptionRate` has no effect — for
a fixed draw stream the run is identical for any two rates (no eavesdropper
draw is consumed, by short-circuit), and the returned result has every
`eveInterceptions` entry false and every `eveBits`/`eveBases` entry `none`. -/
theorem bb84_C9 (N : Int) (nl : ℚ) (u : ℕ → ℚ) (er1 er2 : ℚ) :
    simulate N false er1 nl u = simulate N false er2 nl u
    ∧ ∀ r, simulate N false er1 nl u = Except.ok r →
        (∀ x ∈ r.eveInterceptions, x = false)
        ∧ (∀ x ∈ r.eveBits, x = none)
        ∧ (∀ x ∈ r.eveBases, x = none) := by
  constructor
  · simp only [simulate, classicalSimulation]
    rw [photonLoop_noEve_rate (er1 / 100) (er2 / 100) nl u]
  · intro r h
    simp only [simulate, classicalSimulation] at h
    rw [processResults_ok_iff] at h
    obtain ⟨-, hr⟩ := h
    subst hr
    simp only [mkResult_eveInterceptions, mkResult_eveBits, mkResult_eveBases]
    refine ⟨?_, ?_, ?_⟩
    · intro x hx
      simp only [List.mem_map] at hx
      obtain ⟨o, ho, rfl⟩ := hx
      exact (photonLoop_noEve_fields (er1 / 100) nl u _ _ o ho).1
    · intro x hx
      simp only [List.mem_map] at hx
      obtain ⟨o, ho, rfl⟩ := hx
      exact (photonLoop_noEve_fields (er1 / 100) nl u _ _ o ho).2.1
    · intro x hx
      simp only [List.mem_map] at hx
      obtain ⟨o, ho, rfl⟩ := hx
      exact (photonLoop_noEve_fields (er1 / 100) nl u _ _ o ho).2.2

theorem bb84_C9_witness :
    simulate 1 false 30 0 uZero = simulate 1 false 250 0 uZero
    ∧ ∀ x ∈ (mkResult [true] [Basis.Z] [true] [Basis.Z] [none] [none] [false]
        false).eveInterceptions, x = false := by
  have h := bb84_C9 1 0 uZero 30 250
  refine ⟨h.1, ?_⟩
  have h2 := h.2 (mkResult [true] [Basis.Z] [true] [Basis.Z] [none] [none] [false] false)
    (by norm_num [simulate, classicalSimulation, drawList, randBit, randBasis, randFloat,
      uZero, photonLoop, photonStep, eveStage, bobMeasure, processResults])
  exact h2.1

/-- C10: in the probabilistic backend with `includeEve = false` and
`noiseLevel ≤ 0`, Bob's bit equals Alice's bit at every matching-basis
position, so the run has `errorRate = 0`, a final key of length equal to the
number of matching-basis positions, and `quantumFidelity = 1` whenever at
least one basis matches (`0` otherwise). -/
theorem bb84_C10 (N : Int) (er nl : ℚ) (u : ℕ → ℚ) (r : BB84Result)
    (hu : ∀ k, 0 ≤ u k) (hnl : nl ≤ 0)
    (h : classicalSimulation N false er nl u = Except.ok r) :
    (∀ i, i < r.matchingBases.length → r.matchingBases.getD i false = true →
        r.bobBits.getD i false = r.aliceBits.getD i false)
    ∧ r.errorRate = 0
    ∧ r.finalKey.length = r.matchingBases.count true
    ∧ (0 < r.matchingBases.count true → r.quantumFidelity = 1)
    ∧ (r.matchingBases.count true = 0 → r.quantumFidelity = 0) := by
  simp only [classicalSimulation] at h
  rw [processResults_ok_iff] at h
  obtain ⟨hne, hr⟩ := h
  subst hr
  simp only [mkResult_matchingBases, mkResult_bobBits, mkResult_aliceBits, mkResult_errorRate,
    mkResult_finalKey, mkResult_quantumFidelity]
  set A := (drawList (randBit u) N.toNat 0).1 with hAdef
  set AB := (drawList (randBasis u) N.toNat (drawList (randBit u) N.toNat 0).2).1 with hABdef
  set BB := (drawList (randBasis u) N.toNat
    (drawList (randBasis u) N.toNat (drawList (randBit u) N.toNat 0).2).2).1 with hBBdef
  set K := (drawList (randBasis u) N.toNat
    (drawList (randBasis u) N.toNat (drawList (randBit u) N.toNat 0).2).2).2 with hKdef
  set B := (photonLoop false er nl u (A.zip (AB.zip BB)) K).1.map PhotonOut.bobBit with hBdef
  have hAl : A.length = N.toNat := by rw [hAdef]; exact drawList_length _ _ _
  have hABl : AB.length = N.toNat := by rw [hABdef]; exact drawList_length _ _ _
  have hBBl : BB.length = N.toNat := by rw [hBBdef]; exact drawList_length _ _ _
  have hBl : B.length = N.toNat := by
    rw [hBdef, List.length_map, photonLoop_length]
    simp [hAl, hABl, hBBl]
  have hml : (matchingBasesList AB BB).length = N.toNat := by
    rw [matchingBasesList_length, hABl, hBBl]; omega
  have hpoint : ∀ i, i < (matchingBasesList AB BB).length →
      (matchingBasesList AB BB).getD i false = true →
      B.getD i false = A.getD i false := by
    intro i hi hmi
    have hmi2 := matchingBasesList_getD AB BB i hi
    rw [hmi] at hmi2
    rw [hBdef]
    exact photonLoop_noEve_bob er nl u hu hnl A AB BB K i (by omega) (by omega) (by omega)
      (of_decide_eq_true hmi2.symm)
  have hsl := siftLoop_no_mismatch (matchingBasesList AB BB) A B (by omega) (by omega) hpoint
  refine ⟨hpoint, ?_, hsl.2, ?_, ?_⟩
  · rw [hsl.1]
    rcases Nat.eq_zero_or_pos (siftLoop (matchingBasesList AB BB) A B).2.1 with h0 | h0
    · simp [h0]
    · simp [h0]
  · intro hpos
    have hne2 := Nat.pos_iff_ne_zero.mp hpos
    have hcc := (siftLoop_partition (matchingBasesList AB BB) A B).1
    rw [hsl.2] at hcc
    simp only [calculateFidelity, if_neg hne2, hcc]
    rw [div_self]
    exact_mod_cast hne2
  · intro h0
    simp only [calculateFidelity, if_pos h0]

theorem bb84_C10_witness :
    (mkResult [true] [Basis.Z] [true] [Basis.Z] [none] [none] [false] false).errorRate = 0
    ∧ (mkResult [true] [Basis.Z] [true] [Basis.Z] [none] [none] [false]
        false).quantumFidelity = 1 := by
  have h := bb84_C10 1 0 0 uZero
    (mkResult [true] [Basis.Z] [true] [Basis.Z] [none] [none] [false] false)
    (fun k => le_refl 0) le_rfl
    (by norm_num [classicalSimulation, drawList, randBit, randBasis, randFloat, uZero,
      photonLoop, photonStep, eveStage, bobMeasure, processResults])
  exact ⟨h.2.1, h.2.2.2.1 (by decide)⟩

end BB84
